import Mathlib

/-!
Verification of `pdr_scanner.py` (privacy-sweep).

Python strings are modelled as `List Char` (ASCII fragment of Python's
Unicode semantics; every input exercised by the claims is ASCII).
Python floats are modelled as `ℚ`; the score arithmetic only adds the
constants 0.15 / 0.10 / 0.20 and caps with `min · 1`, so no claim in
scope depends on binary-float rounding.

Regular expressions `EMAIL_RE` and `PHONE_RE` are embedded as explicit
backtracking matchers over a small atom language that mirrors the two
concrete patterns; greedy/optional backtracking order follows CPython's
`re` (leftmost position, greedy alternative first, first overall
success).  All recursive functions take an explicit fuel argument so
that they are structurally recursive and reduce inside `decide`/`rfl`;
the entry points supply fuel that strictly exceeds the recursion depth.
-/

/-- Python `\s` (ASCII): the six whitespace characters. -/
def pySpaceChar (c : Char) : Bool :=
  c = ' ' || c = '\t' || c = '\n' || c = '\r' || c = '\x0B' || c = '\x0C'

/-- Python `\w` (ASCII): alphanumeric or underscore. -/
def pyWordChar (c : Char) : Bool := c.isAlphanum || c = '_'

/-- The character kinds appearing in `EMAIL_RE` and `PHONE_RE`. -/
inductive CKind where
  | word
  | mail
  | digit
  | sep
deriving DecidableEq

/-- Membership test of each character kind.
`mail` is `[\w\.-]`, `sep` is `[-.\s]`, `digit` is `\d`, `word` is `\w`. -/
def CKind.test : CKind → Char → Bool
  | .word, c => pyWordChar c
  | .mail, c => pyWordChar c || c = '.' || c = '-'
  | .digit, c => c.isDigit
  | .sep, c => c = '-' || c = '.' || pySpaceChar c

/-- Regex atoms: literal, optional literal, one class char, optional
class char, greedy `+` over a class, optional non-capturing group. -/
inductive RAtom where
  | lit (c : Char)
  | litOpt (c : Char)
  | one (k : CKind)
  | oneOpt (k : CKind)
  | many1 (k : CKind)
  | grpOpt (g : List RAtom)

/-- Backtracking matcher at the start of `s`.  Returns the remainder of
the string after the first (in CPython's greedy backtracking order)
successful match of the whole atom list.  `fuel` only bounds the
recursion depth; every recursive call decreases it by one while either
shortening `s` or shrinking the total atom size, so any fuel larger
than `s.length +` (total atom size) is sufficient. -/
def matchA : Nat → List RAtom → List Char → Option (List Char)
  | 0, _, _ => none
  | _ + 1, [], s => some s
  | fuel + 1, .lit c :: rest, s =>
    match s with
    | [] => none
    | x :: xs => if x = c then matchA fuel rest xs else none
  | fuel + 1, .litOpt c :: rest, s =>
    (match s with
     | [] => none
     | x :: xs => if x = c then matchA fuel rest xs else none) <|> matchA fuel rest s
  | fuel + 1, .one k :: rest, s =>
    match s with
    | [] => none
    | x :: xs => if k.test x then matchA fuel rest xs else none
  | fuel + 1, .oneOpt k :: rest, s =>
    (match s with
     | [] => none
     | x :: xs => if k.test x then matchA fuel rest xs else none) <|> matchA fuel rest s
  | fuel + 1, .many1 k :: rest, s =>
    match s with
    | [] => none
    | x :: xs =>
      if k.test x then matchA fuel (.many1 k :: rest) xs <|> matchA fuel rest xs else none
  | fuel + 1, .grpOpt g :: rest, s => matchA fuel (g ++ rest) s <|> matchA fuel rest s

/-- Try a match at the start of `s`; the fuel `s.length + 64` strictly
exceeds the recursion depth for both concrete patterns below (total
atom sizes 5 and 18). -/
def reMatchAt (atoms : List RAtom) (s : List Char) : Option (List Char) :=
  matchA (s.length + 64) atoms s

/-- `re.findall` scan: try to match at each position; on success record
the consumed prefix and continue at the match end (advance by one on an
empty match, as CPython does), on failure advance one character. -/
def findAllF : Nat → List RAtom → List Char → List (List Char)
  | 0, _, _ => []
  | fuel + 1, atoms, s =>
    match reMatchAt atoms s with
    | some rem =>
      if rem.length < s.length then
        s.take (s.length - rem.length) :: findAllF fuel atoms rem
      else
        match s with
        | [] => [[]]
        | _ :: t => [] :: findAllF fuel atoms t
    | none =>
      match s with
      | [] => []
      | _ :: t => findAllF fuel atoms t

/-- `PATTERN.findall(s)`. -/
def reFindAll (atoms : List RAtom) (s : List Char) : List (List Char) :=
  findAllF (s.length + 1) atoms s

/-- `EMAIL_RE = re.compile(r'[\w\.-]+@[\w\.-]+\.\w+')`. -/
def emailAtoms : List RAtom :=
  [.many1 .mail, .lit '@', .many1 .mail, .lit '.', .many1 .word]

/-- `PHONE_RE = re.compile(r'(?:(?:\+?1[-.\s]?)?\(?\d{3}\)?[-.\s]?\d{3}[-.\s]?\d{4})')`. -/
def phoneAtoms : List RAtom :=
  [.grpOpt [.litOpt '+', .lit '1', .oneOpt .sep], .litOpt '(', .one .digit, .one .digit,
   .one .digit, .litOpt ')', .oneOpt .sep, .one .digit, .one .digit, .one .digit,
   .oneOpt .sep, .one .digit, .one .digit, .one .digit, .one .digit]

/-- Python `s.replace(old, new)`: leftmost, non-overlapping, replaces
every occurrence (for empty `old`, CPython inserts `new` around every
character).  Out of fuel returns `[]`; the entry point below supplies
sufficient fuel. -/
def replaceAllF : Nat → List Char → List Char → List Char → List Char
  | 0, _, _, _ => []
  | fuel + 1, s, old, new =>
    if old = [] then new ++ (s.map (fun c => c :: new)).flatten
    else if s.take old.length = old then new ++ replaceAllF fuel (s.drop old.length) old new
    else
      match s with
      | [] => []
      | c :: t => c :: replaceAllF fuel t old new

/-- Python `s.replace(old, new)` with sufficient fuel. -/
def pyReplace (s old new : List Char) : List Char := replaceAllF (s.length + 1) s old new

/-- Python `s.split(sep)` for a one-character separator (keeps empty
pieces). -/
def pySplitOn (sep : Char) : List Char → List (List Char)
  | [] => [[]]
  | c :: t =>
    let r := pySplitOn sep t
    if c = sep then [] :: r
    else
      match r with
      | [] => [[c]]
      | h :: tl => (c :: h) :: tl

/-- Python `s.strip()` (whitespace on both ends). -/
def pyStrip (s : List Char) : List Char :=
  ((s.dropWhile pySpaceChar).reverse.dropWhile pySpaceChar).reverse

/-- Accumulator worker for `pySplit`. -/
def pySplitAux : List Char → List Char → List (List Char)
  | [], acc => if acc = [] then [] else [acc.reverse]
  | c :: t, acc =>
    if pySpaceChar c then
      if acc = [] then pySplitAux t [] else acc.reverse :: pySplitAux t []
    else pySplitAux t (c :: acc)

/-- Python `s.split()` (runs of whitespace, no empty tokens). -/
def pySplit (s : List Char) : List (List Char) := pySplitAux s []

/-- Python `s[-n:]` on strings (whole string when shorter than `n`). -/
def lastN (n : Nat) (l : List Char) : List Char := l.drop (l.length - n)

/-- Python `w.capitalize()`: first character uppercased, rest lowered. -/
def pyCapitalize : List Char → List Char
  | [] => []
  | c :: t => c.toUpper :: t.map Char.toLower

/-- Python `w.isalpha()` (ASCII model): nonempty and all alphabetic. -/
def pyIsAlpha (w : List Char) : Bool := !w.isEmpty && w.all Char.isAlpha

/-- `STATE_ABBR` from the source: the fixed region-code set. -/
def STATE_ABBR : List (List Char) :=
  (["AL", "AK", "AZ", "AR", "CA", "CO", "CT", "DE", "FL", "GA", "HI", "ID", "IL", "IN",
    "IA", "KS", "KY", "LA", "ME", "MD", "MA", "MI", "MN", "MS", "MO", "MT", "NE", "NV",
    "NH", "NJ", "NM", "NY", "NC", "ND", "OH", "OK", "OR", "PA", "RI", "SC", "SD", "TN",
    "TX", "UT", "VT", "VA", "WA", "WV", "WI", "WY", "DC"]).map String.toList

/-- `QueryParts` dataclass. -/
structure QueryParts where
  name : List Char
  city : Option (List Char)
  state : Option (List Char)
  emails : List (List Char)
  phones : List (List Char)
  raw : List Char
deriving DecidableEq, Repr

/-- `EMAIL_RE.findall(query)`. -/
def emailMatches (q : List Char) : List (List Char) := reFindAll emailAtoms q

/-- `PHONE_RE.findall(query)` (the raw matched substrings, before digit
normalization). -/
def phoneMatches (q : List Char) : List (List Char) := reFindAll phoneAtoms q

/-- The working text of `smart_parse` after the two replacement loops
(`for e in emails: work = work.replace(e, ' ')` followed by the same
for the phone matches). -/
def residualText (q : List Char) : List Char :=
  (phoneMatches q).foldl (fun w p => pyReplace w p [' '])
    ((emailMatches q).foldl (fun w e => pyReplace w e [' ']) q)

/-- `candidates[0] if candidates else parts[0]` (empty when no parts),
with `candidates = [seg for seg in parts if 2 <= len(seg.split()) <= 4]`. -/
def pickName (parts : List (List Char)) : List Char :=
  match parts.filter (fun seg => decide (2 ≤ (pySplit seg).length ∧ (pySplit seg).length ≤ 4)) with
  | c :: _ => c
  | [] =>
    match parts with
    | p0 :: _ => p0
    | [] => []

/-- The city/state scan over `parts[1:]`: for each segment, split on
whitespace after replacing dots by spaces; if the uppercased last token
is a region code, stop with that state and the joined preceding tokens
as city (`or None` coerces an empty join to absent). -/
def findCityState : List (List Char) → Option (List Char) × Option (List Char)
  | [] => (none, none)
  | seg :: rest =>
    let tokens := pySplit (seg.map (fun c => if c = '.' then ' ' else c))
    match tokens.getLast? with
    | none => findCityState rest
    | some lastTok =>
      let ms := lastTok.map Char.toUpper
      if ms ∈ STATE_ABBR then
        (if List.intercalate [' '] tokens.dropLast = [] then none
         else some (List.intercalate [' '] tokens.dropLast), some ms)
      else findCityState rest

/-- `smart_parse` from the source: extract emails and normalized
phones, strip the matched substrings from the working text, split the
residual on commas into stripped nonempty segments, pick the name
candidate, scan the remaining segments for a city/state pair, and
title-case the alphabetic name tokens. -/
def smart_parse (query : List Char) : QueryParts :=
  let parts := ((pySplitOn ',' (residualText query)).map pyStrip).filter (fun p => decide (p ≠ []))
  let cs := findCityState (parts.drop 1)
  { name := List.intercalate [' ']
      ((pySplit (pickName parts)).map (fun w => if pyIsAlpha w then pyCapitalize w else w))
    city := cs.1
    state := cs.2
    emails := emailMatches query
    phones := (phoneMatches query).map (fun p => lastN 10 (p.filter Char.isDigit))
    raw := query }

/-- Python string comparison (code-point lexicographic) as `s1 <= s2`. -/
def lexLe : List Char → List Char → Bool
  | [], _ => true
  | _ :: _, [] => false
  | a :: as, b :: bs => if a = b then lexLe as bs else decide (a < b)

/-- `ResultItem` dataclass (score as `ℚ`, see the header note). -/
structure ResultItem where
  site : List Char
  title : List Char
  url : List Char
  score : ℚ
  matched_fields : List (List Char)
deriving DecidableEq, Repr

/-- Name-token pass of `score_link_text`: `for tok in q.name.lower().split():
if tok and tok in hay: score += 0.15; matched.append(tok)`. -/
def addNameToks (hay : List Char) (q : QueryParts) (acc : ℚ × List (List Char)) :
    ℚ × List (List Char) :=
  (pySplit (q.name.map Char.toLower)).foldl
    (fun a tok => if tok ≠ [] ∧ tok <:+: hay then (a.1 + 0.15, a.2 ++ [tok]) else a) acc

/-- City pass: `if q.city and q.city.lower() in hay: score += 0.15`. -/
def addCity (hay : List Char) (q : QueryParts) (acc : ℚ × List (List Char)) :
    ℚ × List (List Char) :=
  match q.city with
  | none => acc
  | some c => if c ≠ [] ∧ c.map Char.toLower <:+: hay then (acc.1 + 0.15, acc.2 ++ [c]) else acc

/-- State pass: `if q.state and q.state.lower() in hay: score += 0.10`. -/
def addState (hay : List Char) (q : QueryParts) (acc : ℚ × List (List Char)) :
    ℚ × List (List Char) :=
  match q.state with
  | none => acc
  | some st =>
    if st ≠ [] ∧ st.map Char.toLower <:+: hay then (acc.1 + 0.10, acc.2 ++ [st]) else acc

/-- Email pass: local part (before the first `@`) lowered; `+0.20`. -/
def addEmails (hay : List Char) (q : QueryParts) (acc : ℚ × List (List Char)) :
    ℚ × List (List Char) :=
  q.emails.foldl
    (fun a em =>
      if (em.takeWhile (fun c => c ≠ '@')).map Char.toLower <:+: hay then
        (a.1 + 0.20, a.2 ++ [em])
      else a) acc

/-- Phone pass: last four digits; `+0.20`, masked form recorded. -/
def addPhones (hay : List Char) (q : QueryParts) (acc : ℚ × List (List Char)) :
    ℚ × List (List Char) :=
  q.phones.foldl
    (fun a ph =>
      if lastN 4 ph ≠ [] ∧ lastN 4 ph <:+: hay then (a.1 + 0.20, a.2 ++ ['*' :: lastN 4 ph])
      else a) acc

/-- `score_link_text(text, url, q)`: case-insensitive substring scoring
against `hay = f"{text} {url}".lower()`, final score capped at 1. -/
def score_link_text (text url : List Char) (q : QueryParts) : ℚ × List (List Char) :=
  let hay := (text ++ [' '] ++ url).map Char.toLower
  let a := addPhones hay q (addEmails hay q (addState hay q (addCity hay q (addNameToks hay q (0, [])))))
  (min a.1 1, a.2)

/-- Outcome of the optional-capability fetch in `best_effort_scrape`:
`unavailable` models `httpx is None or BeautifulSoup is None`, `failed`
models any exception in the `try` block, and `page anchors` models a
fetched page whose `<a href=...>` anchors are the given
(text, href) pairs in document order. -/
inductive FetchOutcome where
  | unavailable
  | failed
  | page (anchors : List (List Char × List Char))

/-- Characters allowed in a URL scheme after the leading letter
(`urllib.parse`). -/
def schemeChar (c : Char) : Bool := c.isAlphanum || c = '+' || c = '-' || c = '.'

/-- Strip a leading `scheme:` as `urllib.parse.urlparse` does: the part
before the first colon must be nonempty, start with a letter and
consist of scheme characters. -/
def dropScheme (u : List Char) : List Char :=
  let pre := u.takeWhile (fun c => c ≠ ':')
  if pre.length < u.length ∧ pre ≠ [] ∧ pre.all schemeChar ∧
      (pre.headI.isAlpha) then
    u.drop (pre.length + 1)
  else u

/-- `urlparse(u).netloc`: nonempty exactly when the remainder after an
optional scheme starts with `//`; it then extends to the next `/`, `?`
or `#`. -/
def netlocOf (u : List Char) : List Char :=
  let rest := dropScheme u
  if rest.take 2 = ['/', '/'] then
    (rest.drop 2).takeWhile (fun c => !(c = '/' || c = '?' || c = '#'))
  else []

/-- `h.split(':')[0]`: drop an optional port. -/
def stripPort (h : List Char) : List Char := h.takeWhile (fun c => c ≠ ':')

/-- `d.split('.')[-2:]`: the last two dot-separated labels. -/
def lastTwoLabels (d : List Char) : List (List Char) :=
  let ls := pySplitOn '.' d
  ls.drop (ls.length - 2)

/-- The anchor loop of `best_effort_scrape`: skip fragment links,
restrict to the same registrable domain, resolve relative links against
`https://{domain}`, deduplicate by resolved URL (`seen`), score each
link, and keep those scoring at least 0.4 with the title truncated to
120 characters. -/
def processAnchors (site : List Char) (q : QueryParts) (domain : List Char) :
    List (List Char × List Char) → List (List Char) → List ResultItem
  | [], _ => []
  | (txt, href) :: rest, seen =>
    if href.take 1 = ['#'] then processAnchors site q domain rest seen
    else
      let netloc := netlocOf href
      let host := stripPort (if netloc = [] then domain else netloc)
      if lastTwoLabels domain ≠ lastTwoLabels host then processAnchors site q domain rest seen
      else
        let full := if netloc = [] then ("https://".toList ++ domain ++ href) else href
        if full ∈ seen then processAnchors site q domain rest seen
        else
          let text := pyStrip txt
          let sc := score_link_text text full q
          if (0.4 : ℚ) ≤ sc.1 then
            { site := site, title := text.take 120, url := full, score := sc.1,
              matched_fields := sc.2 } :: processAnchors site q domain rest (full :: seen)
          else processAnchors site q domain rest (full :: seen)

/-- Stable descending order on the score only, as
`out.sort(key=lambda x: x.score, reverse=True)`: CPython's sort is
stable and `reverse=True` reverses each comparison, so an element is
inserted before another exactly when the other's key is `≤` its own. -/
def scoreDesc (a b : ResultItem) : Prop := b.score ≤ a.score

instance : DecidableRel scoreDesc := fun a b => inferInstanceAs (Decidable (b.score ≤ a.score))

instance : IsTotal ResultItem scoreDesc := ⟨fun a b => le_total b.score a.score⟩

instance : IsTrans ResultItem scoreDesc := ⟨fun _ _ _ h1 h2 => le_trans h2 h1⟩

/-- `best_effort_scrape(site, url, q)`, parameterized by the fetch
outcome: empty when the optional dependency is missing or the request
fails; otherwise the processed anchors sorted by score descending,
capped at 15. -/
def best_effort_scrape (fetched : FetchOutcome) (site : List Char) (url : List Char)
    (q : QueryParts) : List ResultItem :=
  match fetched with
  | .unavailable => []
  | .failed => []
  | .page anchors =>
    let domain := stripPort (netlocOf url)
    (List.insertionSort scoreDesc (processAnchors site q domain anchors [])).take 15

/-- First entry of a dict-like association list with the given URL. -/
def urlFind (l : List ResultItem) (u : List Char) : Option ResultItem :=
  l.find? (fun x => decide (x.url = u))

/-- One step of `uniq = {it.url: it for it in rows}`: overwrite the
value in place when the key exists (CPython keeps the first-insertion
key position), otherwise append. -/
def dictUpd : List ResultItem → ResultItem → List ResultItem
  | [], it => [it]
  | x :: xs, it => if x.url = it.url then it :: xs else x :: dictUpd xs it

/-- Stable descending order on the key `(score, site)` (lexicographic,
Python tuple comparison), as `sorted(..., key=lambda x: (x.score,
x.site), reverse=True)`. -/
def itemDesc (a b : ResultItem) : Prop :=
  b.score < a.score ∨ (b.score = a.score ∧ lexLe b.site a.site = true)

instance : DecidableRel itemDesc := fun a b =>
  inferInstanceAs (Decidable (b.score < a.score ∨ (b.score = a.score ∧ lexLe b.site a.site = true)))

theorem lexLe_total : ∀ a b : List Char, lexLe a b = true ∨ lexLe b a = true
  | [], _ => Or.inl rfl
  | _ :: _, [] => Or.inr rfl
  | a :: as, b :: bs => by
    by_cases hab : a = b
    · subst hab
      simpa [lexLe] using lexLe_total as bs
    · rcases lt_or_gt_of_ne hab with h | h
      · exact Or.inl (by simp [lexLe, hab, h])
      · exact Or.inr (by simp [lexLe, Ne.symm hab, h])

theorem lexLe_trans : ∀ a b c : List Char,
    lexLe a b = true → lexLe b c = true → lexLe a c = true
  | [], _, _, _, _ => rfl
  | a :: as, b :: bs, c :: cs, h1, h2 => by
    by_cases hab : a = b <;> by_cases hbc : b = c
    · subst hab; subst hbc
      simp only [lexLe, if_pos rfl] at h1 h2 ⊢
      exact lexLe_trans as bs cs h1 h2
    · subst hab
      simp [lexLe, hbc] at h2 ⊢
      simpa [hbc] using h2
    · subst hbc
      simp [lexLe, hab] at h1 ⊢
      simpa [hab] using h1
    · simp [lexLe, hab, hbc] at h1 h2
      have hac : a < c := lt_trans h1 h2
      simp [lexLe, ne_of_lt hac, hac]
  | _ :: _, [], _, h1, _ => by simp [lexLe] at h1
  | _ :: _, _ :: _, [], _, h2 => by simp [lexLe] at h2

instance : IsTotal ResultItem itemDesc :=
  ⟨fun a b => by
    rcases lt_trichotomy a.score b.score with h | h | h
    · exact Or.inr (Or.inl h)
    · rcases lexLe_total b.site a.site with hs | hs
      · exact Or.inl (Or.inr ⟨h.symm, hs⟩)
      · exact Or.inr (Or.inr ⟨h, hs⟩)
    · exact Or.inl (Or.inl h)⟩

instance : IsTrans ResultItem itemDesc :=
  ⟨fun a b c h1 h2 => by
    rcases h1 with h1 | ⟨e1, s1⟩
    · rcases h2 with h2 | ⟨e2, s2⟩
      · exact Or.inl (h2.trans h1)
      · exact Or.inl (e2 ▸ h1)
    · rcases h2 with h2 | ⟨e2, s2⟩
      · exact Or.inl (e1 ▸ h2)
      · exact Or.inr ⟨e2.trans e1, lexLe_trans _ _ _ s2 s1⟩⟩

/-- The aggregation step of `main` applied to the per-site result
lists: flatten in site order, deduplicate by URL with dict-overwrite
semantics, then sort by `(score, site)` descending. -/
def aggregate (perSite : List (List ResultItem)) : List ResultItem :=
  List.insertionSort itemDesc (perSite.flatten.foldl dictUpd [])

/-- The city component produced by the city/state scan is never
`some []`: an empty join is coerced to `none` by `or None`. -/
theorem findCityState_city_pos :
    ∀ segs : List (List Char), ((findCityState segs).1).elim True (fun c => 0 < c.length)
  | [] => trivial
  | seg :: rest => by
    unfold findCityState
    cases h : (pySplit (seg.map (fun c => if c = '.' then ' ' else c))).getLast? with
    | none => simpa [h] using findCityState_city_pos rest
    | some lastTok =>
      by_cases hs : lastTok.map Char.toUpper ∈ STATE_ABBR
      · simp only [h, hs, if_pos]
        split
        · trivial
        · next hne => simpa [Option.elim] using List.length_pos.mpr hne
      · simpa [h, hs] using findCityState_city_pos rest

/-- C1 (counterexample): on the spec's scenario input
`"Jane A. Doe, Austin, TX"`, `smart_parse` does not produce city
`"Austin"`; the state `"TX"` sits in its own comma segment, so the
joined city tokens of that segment are empty and the city is `None`. -/
theorem c1_counterexample :
    ¬ ((smart_parse ("Jane A. Doe, Austin, TX".toList)).name = "Jane A. Doe".toList ∧
       (smart_parse ("Jane A. Doe, Austin, TX".toList)).city = some ("Austin".toList) ∧
       (smart_parse ("Jane A. Doe, Austin, TX".toList)).state = some ("TX".toList) ∧
       (smart_parse ("Jane A. Doe, Austin, TX".toList)).emails = [] ∧
       (smart_parse ("Jane A. Doe, Austin, TX".toList)).phones = []) := by
  decide

/-- C1 (amended): parsing `"Jane A. Doe, Austin, TX"` yields name
`"Jane A. Doe"`, no city (a state token alone in its segment leaves the
city absent), state `"TX"`, empty emails and phones, and the raw input
preserved. -/
theorem c1_jane_scenario :
    smart_parse ("Jane A. Doe, Austin, TX".toList) =
      { name := "Jane A. Doe".toList, city := none, state := some ("TX".toList),
        emails := [], phones := [], raw := "Jane A. Doe, Austin, TX".toList } := by
  decide

/-- C5: `smart_parse` is total (it is a Lean function), preserves the
raw input verbatim, and on the empty input returns the all-empty
record. -/
theorem c5_total_wellformed :
    ∀ s : List Char, (smart_parse s).raw = s ∧
      smart_parse [] =
        { name := [], city := none, state := none, emails := [], phones := [], raw := [] } :=
  fun _ => ⟨rfl, by decide⟩

/-- C10: the parsed city is never the empty string — it is absent or
nonempty. -/
theorem c10_city_never_empty :
    ∀ t : List Char, ((smart_parse t).city).elim True (fun c => 0 < c.length) := by
  intro t
  exact findCityState_city_pos _

/-- Case split for `Option`'s `<|>`. -/
theorem orElse_some {α : Type} {a b : Option α} {r : α} (h : (a <|> b) = some r) :
    a = some r ∨ (a = none ∧ b = some r) := by
  cases a with
  | none => exact Or.inr ⟨rfl, by simpa using h⟩
  | some x => exact Or.inl (by simpa using h)

/-- Lower bound on digits an atom must consume on any successful match. -/
def dlbAtom : RAtom → Nat
  | .one .digit => 1
  | .many1 .digit => 1
  | .lit c => if c.isDigit then 1 else 0
  | _ => 0

/-- Lower bound on digits a whole atom list must consume. -/
def dlb : List RAtom → Nat
  | [] => 0
  | a :: rest => dlbAtom a + dlb rest

theorem dlb_append : ∀ g rest : List RAtom, dlb (g ++ rest) = dlb g + dlb rest
  | [], _ => by simp [dlb]
  | a :: g, rest => by simp [dlb, dlb_append g rest]; omega

/-- Any successful match consumes a prefix containing at least
`dlb atoms` digit characters. -/
theorem matchA_digits :
    ∀ (fuel : Nat) (atoms : List RAtom) (s rem : List Char),
      matchA fuel atoms s = some rem →
      ∃ pre, s = pre ++ rem ∧ dlb atoms ≤ (pre.filter Char.isDigit).length := by
  intro fuel
  induction fuel with
  | zero => intro atoms s rem h; simp [matchA] at h
  | succ fuel ih =>
    intro atoms s rem h
    have hmono : ∀ (x : Char) (pre : List Char),
        (pre.filter Char.isDigit).length ≤ ((x :: pre).filter Char.isDigit).length := by
      intro x pre
      by_cases hxd : x.isDigit <;> simp [List.filter_cons, hxd]
    cases atoms with
    | nil =>
      simp only [matchA, Option.some.injEq] at h
      exact ⟨[], by simp [h], by simp [dlb]⟩
    | cons a rest =>
      cases a with
      | lit c =>
        cases s with
        | nil => simp [matchA] at h
        | cons x xs =>
          simp only [matchA] at h
          by_cases hx : x = c
          · rw [if_pos hx] at h
            obtain ⟨pre, hpre, hd⟩ := ih rest xs rem h
            refine ⟨x :: pre, by simp [hpre], ?_⟩
            subst hx
            by_cases hcd : x.isDigit
            · simp only [dlb, dlbAtom, if_pos hcd, List.filter_cons, hcd, if_pos,
                List.length_cons]
              omega
            · have h0 : dlbAtom (.lit x) = 0 := by simp [dlbAtom, hcd]
              simp only [dlb, h0, Nat.zero_add]
              exact hd.trans (hmono x pre)
          · rw [if_neg hx] at h
            exact absurd h (by simp)
      | litOpt c =>
        cases s with
        | nil =>
          simp only [matchA, Option.none_orElse] at h
          obtain ⟨pre, hpre, hd⟩ := ih rest [] rem h
          exact ⟨pre, hpre, by simpa [dlb, dlbAtom] using hd⟩
        | cons x xs =>
          simp only [matchA] at h
          rcases orElse_some h with h1 | ⟨_, h2⟩
          · by_cases hx : x = c
            · rw [if_pos hx] at h1
              obtain ⟨pre, hpre, hd⟩ := ih rest xs rem h1
              refine ⟨x :: pre, by simp [hpre], ?_⟩
              have h0 : dlbAtom (.litOpt c) = 0 := rfl
              simp only [dlb, h0, Nat.zero_add]
              exact hd.trans (hmono x pre)
            · rw [if_neg hx] at h1
              exact absurd h1 (by simp)
          · obtain ⟨pre, hpre, hd⟩ := ih rest (x :: xs) rem h2
            refine ⟨pre, hpre, ?_⟩
            have h0 : dlbAtom (.litOpt c) = 0 := rfl
            simp only [dlb, h0, Nat.zero_add]
            exact hd
      | one k =>
        cases s with
        | nil => simp [matchA] at h
        | cons x xs =>
          simp only [matchA] at h
          by_cases ht : k.test x
          · rw [if_pos ht] at h
            obtain ⟨pre, hpre, hd⟩ := ih rest xs rem h
            refine ⟨x :: pre, by simp [hpre], ?_⟩
            by_cases hk : k = CKind.digit
            · subst hk
              have hxd : x.isDigit = true := ht
              simp only [dlb, dlbAtom, List.filter_cons, hxd, if_pos, List.length_cons]
              omega
            · have h0 : dlbAtom (.one k) = 0 := by
                cases k with
                | digit => exact absurd rfl hk
                | word => rfl
                | mail => rfl
                | sep => rfl
              simp only [dlb, h0, Nat.zero_add]
              exact hd.trans (hmono x pre)
          · rw [if_neg ht] at h
            exact absurd h (by simp)
      | oneOpt k =>
        cases s with
        | nil =>
          simp only [matchA, Option.none_orElse] at h
          obtain ⟨pre, hpre, hd⟩ := ih rest [] rem h
          exact ⟨pre, hpre, by simpa [dlb, dlbAtom] using hd⟩
        | cons x xs =>
          simp only [matchA] at h
          rcases orElse_some h with h1 | ⟨_, h2⟩
          · by_cases ht : k.test x
            · rw [if_pos ht] at h1
              obtain ⟨pre, hpre, hd⟩ := ih rest xs rem h1
              refine ⟨x :: pre, by simp [hpre], ?_⟩
              have h0 : dlbAtom (.oneOpt k) = 0 := rfl
              simp only [dlb, h0, Nat.zero_add]
              exact hd.trans (hmono x pre)
            · rw [if_neg ht] at h1
              exact absurd h1 (by simp)
          · obtain ⟨pre, hpre, hd⟩ := ih rest (x :: xs) rem h2
            exact ⟨pre, hpre, by simpa [dlb, dlbAtom] using hd⟩
      | many1 k =>
        cases s with
        | nil => simp [matchA] at h
        | cons x xs =>
          simp only [matchA] at h
          by_cases ht : k.test x
          · rw [if_pos ht] at h
            rcases orElse_some h with h1 | ⟨_, h2⟩
            · obtain ⟨pre, hpre, hd⟩ := ih (.many1 k :: rest) xs rem h1
              exact ⟨x :: pre, by simp [hpre], hd.trans (hmono x pre)⟩
            · obtain ⟨pre, hpre, hd⟩ := ih rest xs rem h2
              refine ⟨x :: pre, by simp [hpre], ?_⟩
              by_cases hk : k = CKind.digit
              · subst hk
                have hxd : x.isDigit = true := ht
                simp only [dlb, dlbAtom, List.filter_cons, hxd, if_pos, List.length_cons]
                omega
              · have h0 : dlbAtom (.many1 k) = 0 := by
                  cases k with
                  | digit => exact absurd rfl hk
                  | word => rfl
                  | mail => rfl
                  | sep => rfl
                simp only [dlb, h0, Nat.zero_add]
                exact hd.trans (hmono x pre)
          · rw [if_neg ht] at h
            exact absurd h (by simp)
      | grpOpt g =>
        simp only [matchA] at h
        rcases orElse_some h with h1 | ⟨_, h2⟩
        · obtain ⟨pre, hpre, hd⟩ := ih (g ++ rest) s rem h1
          refine ⟨pre, hpre, ?_⟩
          rw [dlb_append] at hd
          have h0 : dlbAtom (.grpOpt g) = 0 := rfl
          simp only [dlb, h0, Nat.zero_add]
          omega
        · obtain ⟨pre, hpre, hd⟩ := ih rest s rem h2
          exact ⟨pre, hpre, by simpa [dlb, dlbAtom] using hd⟩

/-- Every character an atom can consume is a non-space (used for the
email pattern, whose alphabet has no whitespace); groups are excluded. -/
def atomNoSp : RAtom → Prop
  | .lit c => c ≠ ' '
  | .litOpt c => c ≠ ' '
  | .one k => ∀ c, k.test c = true → c ≠ ' '
  | .oneOpt k => ∀ c, k.test c = true → c ≠ ' '
  | .many1 k => ∀ c, k.test c = true → c ≠ ' '
  | .grpOpt _ => False

/-- A successful match of space-free atoms consumes only non-space
characters. -/
theorem matchA_chars :
    ∀ (fuel : Nat) (atoms : List RAtom) (s rem : List Char),
      (∀ a ∈ atoms, atomNoSp a) → matchA fuel atoms s = some rem →
      ∃ pre, s = pre ++ rem ∧ ∀ c ∈ pre, c ≠ ' ' := by
  intro fuel
  induction fuel with
  | zero => intro atoms s rem _ h; simp [matchA] at h
  | succ fuel ih =>
    intro atoms s rem hA h
    cases atoms with
    | nil =>
      simp only [matchA, Option.some.injEq] at h
      exact ⟨[], by simp [h], by simp⟩
    | cons a rest =>
      have hrest : ∀ a' ∈ rest, atomNoSp a' := fun a' ha' => hA a' (List.mem_cons_of_mem _ ha')
      have hhead : atomNoSp a := hA a (List.mem_cons_self _ _)
      have consCase : ∀ (x : Char) (pre : List Char), x ≠ ' ' → (∀ c ∈ pre, c ≠ ' ') →
          ∀ c ∈ x :: pre, c ≠ ' ' := by
        intro x pre hx hpre c hc
        rcases List.mem_cons.mp hc with rfl | hc'
        · exact hx
        · exact hpre c hc'
      cases a with
      | lit c =>
        cases s with
        | nil => simp [matchA] at h
        | cons x xs =>
          simp only [matchA] at h
          by_cases hx : x = c
          · rw [if_pos hx] at h
            obtain ⟨pre, hpre, hch⟩ := ih rest xs rem hrest h
            exact ⟨x :: pre, by simp [hpre], consCase x pre (hx ▸ hhead) hch⟩
          · rw [if_neg hx] at h
            exact absurd h (by simp)
      | litOpt c =>
        cases s with
        | nil =>
          simp only [matchA, Option.none_orElse] at h
          exact ih rest [] rem hrest h
        | cons x xs =>
          simp only [matchA] at h
          rcases orElse_some h with h1 | ⟨_, h2⟩
          · by_cases hx : x = c
            · rw [if_pos hx] at h1
              obtain ⟨pre, hpre, hch⟩ := ih rest xs rem hrest h1
              exact ⟨x :: pre, by simp [hpre], consCase x pre (hx ▸ hhead) hch⟩
            · rw [if_neg hx] at h1
              exact absurd h1 (by simp)
          · exact ih rest (x :: xs) rem hrest h2
      | one k =>
        cases s with
        | nil => simp [matchA] at h
        | cons x xs =>
          simp only [matchA] at h
          by_cases ht : k.test x
          · rw [if_pos ht] at h
            obtain ⟨pre, hpre, hch⟩ := ih rest xs rem hrest h
            exact ⟨x :: pre, by simp [hpre], consCase x pre (hhead x ht) hch⟩
          · rw [if_neg ht] at h
            exact absurd h (by simp)
      | oneOpt k =>
        cases s with
        | nil =>
          simp only [matchA, Option.none_orElse] at h
          exact ih rest [] rem hrest h
        | cons x xs =>
          simp only [matchA] at h
          rcases orElse_some h with h1 | ⟨_, h2⟩
          · by_cases ht : k.test x
            · rw [if_pos ht] at h1
              obtain ⟨pre, hpre, hch⟩ := ih rest xs rem hrest h1
              exact ⟨x :: pre, by simp [hpre], consCase x pre (hhead x ht) hch⟩
            · rw [if_neg ht] at h1
              exact absurd h1 (by simp)
          · exact ih rest (x :: xs) rem hrest h2
      | many1 k =>
        cases s with
        | nil => simp [matchA] at h
        | cons x xs =>
          simp only [matchA] at h
          by_cases ht : k.test x
          · rw [if_pos ht] at h
            rcases orElse_some h with h1 | ⟨_, h2⟩
            · obtain ⟨pre, hpre, hch⟩ := ih (.many1 k :: rest) xs rem hA h1
              exact ⟨x :: pre, by simp [hpre], consCase x pre (hhead x ht) hch⟩
            · obtain ⟨pre, hpre, hch⟩ := ih rest xs rem hrest h2
              exact ⟨x :: pre, by simp [hpre], consCase x pre (hhead x ht) hch⟩
          · rw [if_neg ht] at h
            exact absurd h (by simp)
      | grpOpt g => exact hhead.elim

/-- Successful matches never lengthen the remainder. -/
theorem matchA_le (fuel : Nat) (atoms : List RAtom) (s rem : List Char)
    (h : matchA fuel atoms s = some rem) : rem.length ≤ s.length := by
  obtain ⟨pre, hp, _⟩ := matchA_digits fuel atoms s rem h
  rw [hp, List.length_append]
  omega

/-- Atoms that must consume at least one character. -/
def mandAtom : RAtom → Prop
  | .lit _ => True
  | .one _ => True
  | .many1 _ => True
  | _ => False

/-- The atom list contains a mandatory atom outside any group. -/
def hasMand (atoms : List RAtom) : Prop := ∃ a ∈ atoms, mandAtom a

/-- A successful match of an atom list with a mandatory atom strictly
shortens the string. -/
theorem matchA_consumes :
    ∀ (fuel : Nat) (atoms : List RAtom) (s rem : List Char),
      hasMand atoms → matchA fuel atoms s = some rem → rem.length < s.length := by
  intro fuel
  induction fuel with
  | zero => intro atoms s rem _ h; simp [matchA] at h
  | succ fuel ih =>
    intro atoms s rem hM h
    cases atoms with
    | nil =>
      obtain ⟨a, ha, _⟩ := hM
      simp at ha
    | cons a rest =>
      have tailMand : mandAtom a → True := fun _ => trivial
      cases a with
      | lit c =>
        cases s with
        | nil => simp [matchA] at h
        | cons x xs =>
          simp only [matchA] at h
          by_cases hx : x = c
          · rw [if_pos hx] at h
            have := matchA_le fuel rest xs rem h
            simp only [List.length_cons]
            omega
          · rw [if_neg hx] at h
            exact absurd h (by simp)
      | one k =>
        cases s with
        | nil => simp [matchA] at h
        | cons x xs =>
          simp only [matchA] at h
          by_cases ht : k.test x
          · rw [if_pos ht] at h
            have := matchA_le fuel rest xs rem h
            simp only [List.length_cons]
            omega
          · rw [if_neg ht] at h
            exact absurd h (by simp)
      | many1 k =>
        cases s with
        | nil => simp [matchA] at h
        | cons x xs =>
          simp only [matchA] at h
          by_cases ht : k.test x
          · rw [if_pos ht] at h
            rcases orElse_some h with h1 | ⟨_, h2⟩
            · have := matchA_le fuel (.many1 k :: rest) xs rem h1
              simp only [List.length_cons]
              omega
            · have := matchA_le fuel rest xs rem h2
              simp only [List.length_cons]
              omega
          · rw [if_neg ht] at h
            exact absurd h (by simp)
      | litOpt c =>
        have hrestM : hasMand rest := by
          obtain ⟨a', ha', hm⟩ := hM
          rcases List.mem_cons.mp ha' with rfl | ha''
          · exact hm.elim
          · exact ⟨a', ha'', hm⟩
        cases s with
        | nil =>
          simp only [matchA, Option.none_orElse] at h
          exact ih rest [] rem hrestM h
        | cons x xs =>
          simp only [matchA] at h
          rcases orElse_some h with h1 | ⟨_, h2⟩
          · by_cases hx : x = c
            · rw [if_pos hx] at h1
              have := matchA_le fuel rest xs rem h1
              simp only [List.length_cons]
              omega
            · rw [if_neg hx] at h1
              exact absurd h1 (by simp)
          · exact ih rest (x :: xs) rem hrestM h2
      | oneOpt k =>
        have hrestM : hasMand rest := by
          obtain ⟨a', ha', hm⟩ := hM
          rcases List.mem_cons.mp ha' with rfl | ha''
          · exact hm.elim
          · exact ⟨a', ha'', hm⟩
        cases s with
        | nil =>
          simp only [matchA, Option.none_orElse] at h
          exact ih rest [] rem hrestM h
        | cons x xs =>
          simp only [matchA] at h
          rcases orElse_some h with h1 | ⟨_, h2⟩
          · by_cases ht : k.test x
            · rw [if_pos ht] at h1
              have := matchA_le fuel rest xs rem h1
              simp only [List.length_cons]
              omega
            · rw [if_neg ht] at h1
              exact absurd h1 (by simp)
          · exact ih rest (x :: xs) rem hrestM h2
      | grpOpt g =>
        have hrestM : hasMand rest := by
          obtain ⟨a', ha', hm⟩ := hM
          rcases List.mem_cons.mp ha' with rfl | ha''
          · exact hm.elim
          · exact ⟨a', ha'', hm⟩
        simp only [matchA] at h
        rcases orElse_some h with h1 | ⟨_, h2⟩
        · obtain ⟨a', ha', hm⟩ := hrestM
          exact ih (g ++ rest) s rem ⟨a', List.mem_append_right g ha', hm⟩ h1
        · exact ih rest s rem hrestM h2

/-- If the input splits as `pre ++ rem`, the recorded findall match
`take (|s| - |rem|)` is exactly `pre`. -/
theorem take_of_append (s pre rem : List Char) (hp : s = pre ++ rem) :
    s.take (s.length - rem.length) = pre := by
  subst hp
  rw [List.length_append, Nat.add_sub_cancel, List.take_left]

/-- Every member of a findall scan over atoms with a mandatory atom is
the consumed prefix of a successful match somewhere in the string. -/
theorem findAllF_mem :
    ∀ (fuel : Nat) (atoms : List RAtom) (s m : List Char), hasMand atoms →
      m ∈ findAllF fuel atoms s →
      ∃ s0 rem, reMatchAt atoms s0 = some rem ∧ rem.length < s0.length ∧
        m = s0.take (s0.length - rem.length) := by
  intro fuel
  induction fuel with
  | zero => intro atoms s m _ hm; simp [findAllF] at hm
  | succ fuel ih =>
    intro atoms s m hM hm
    simp only [findAllF] at hm
    rcases hr : reMatchAt atoms s with _ | rem0
    · rw [hr] at hm
      cases s with
      | nil => simp at hm
      | cons c t => exact ih atoms t m hM (by simpa using hm)
    · rw [hr] at hm
      have hlt : rem0.length < s.length :=
        matchA_consumes (s.length + 64) atoms s rem0 hM hr
      simp only [hlt, if_true] at hm
      rcases List.mem_cons.mp hm with h | h
      · exact ⟨s, rem0, hr, hlt, h⟩
      · exact ih atoms rem0 m hM h

theorem hasMand_email : hasMand emailAtoms :=
  ⟨.many1 .mail, by simp [emailAtoms], trivial⟩

theorem hasMand_phone : hasMand phoneAtoms :=
  ⟨.one .digit, by simp [phoneAtoms], trivial⟩

/-- Every raw phone match contains at least ten digits and is
nonempty. -/
theorem phoneMatches_spec (s m : List Char) (hm : m ∈ phoneMatches s) :
    10 ≤ (m.filter Char.isDigit).length ∧ m ≠ [] := by
  obtain ⟨s0, rem, hr, hlt, hm'⟩ :=
    findAllF_mem (s.length + 1) phoneAtoms s m hasMand_phone hm
  obtain ⟨pre, hp, hd⟩ := matchA_digits (s0.length + 64) phoneAtoms s0 rem hr
  have hpre : m = pre := by rw [hm', take_of_append s0 pre rem hp]
  subst hpre
  have hdlb : dlb phoneAtoms = 10 := by decide
  refine ⟨by omega, ?_⟩
  have hlen : m.length = s0.length - rem.length := by
    rw [hp, List.length_append]
    omega
  intro hnil
  rw [hnil] at hlen
  simp at hlen
  omega

/-- Every email match is nonempty and contains no space character. -/
theorem emailMatches_spec (s m : List Char) (hm : m ∈ emailMatches s) :
    m ≠ [] ∧ ∀ c ∈ m, c ≠ ' ' := by
  obtain ⟨s0, rem, hr, hlt, hm'⟩ :=
    findAllF_mem (s.length + 1) emailAtoms s m hasMand_email hm
  have hA : ∀ a ∈ emailAtoms, atomNoSp a := by
    intro a ha
    simp only [emailAtoms, List.mem_cons, List.not_mem_nil, or_false] at ha
    rcases ha with rfl | rfl | rfl | rfl | rfl
    · intro c hc heq
      rw [heq] at hc
      exact absurd hc (by decide)
    · exact (by decide : ('@' : Char) ≠ ' ')
    · intro c hc heq
      rw [heq] at hc
      exact absurd hc (by decide)
    · exact (by decide : ('.' : Char) ≠ ' ')
    · intro c hc heq
      rw [heq] at hc
      exact absurd hc (by decide)
  obtain ⟨pre, hp, hch⟩ := matchA_chars (s0.length + 64) emailAtoms s0 rem hA hr
  have hpre : m = pre := by rw [hm', take_of_append s0 pre rem hp]
  subst hpre
  have hlen : m.length = s0.length - rem.length := by
    rw [hp, List.length_append]
    omega
  refine ⟨?_, hch⟩
  intro hnil
  rw [hnil] at hlen
  simp at hlen
  omega

/-- C9: every normalized phone entry has length exactly ten — the
pattern guarantees at least ten digits in every match, so trailing-ten
truncation always produces a full ten-digit string. -/
theorem c9_phones_exact_ten :
    ∀ t : List Char, ∀ p ∈ (smart_parse t).phones, p.length = 10 := by
  intro t p hp
  have hph : (smart_parse t).phones =
      (phoneMatches t).map (fun m => lastN 10 (m.filter Char.isDigit)) := rfl
  rw [hph] at hp
  obtain ⟨m, hm, rfl⟩ := List.mem_map.mp hp
  have h10 := (phoneMatches_spec t m hm).1
  simp only [lastN, List.length_drop]
  omega

/-- C9 (witness): the phone in `"call (212) 555-0123"` normalizes to a
ten-character entry. -/
theorem c9_phones_exact_ten_witness :
    ("2125550123".toList ∈ (smart_parse ("call (212) 555-0123".toList)).phones) ∧
      ("2125550123".toList).length = 10 :=
  ⟨by decide, c9_phones_exact_ten ("call (212) 555-0123".toList) ("2125550123".toList) (by decide)⟩

/-- C8: the phones sequence is exactly the per-match normalization
(strip non-digits, keep the trailing ten), and each entry is digit-only
of length at most ten. -/
theorem c8_phone_normalization :
    ∀ t : List Char,
      (smart_parse t).phones =
        (phoneMatches t).map (fun m => lastN 10 (m.filter Char.isDigit)) ∧
      ∀ p ∈ (smart_parse t).phones, p.all Char.isDigit = true ∧ p.length ≤ 10 := by
  intro t
  refine ⟨rfl, ?_⟩
  intro p hp
  have hph : (smart_parse t).phones =
      (phoneMatches t).map (fun m => lastN 10 (m.filter Char.isDigit)) := rfl
  rw [hph] at hp
  obtain ⟨m, hm, rfl⟩ := List.mem_map.mp hp
  constructor
  · rw [List.all_eq_true]
    intro c hc
    have hc' : c ∈ m.filter Char.isDigit := List.mem_of_mem_drop hc
    exact (List.mem_filter.mp hc').2
  · simp only [lastN, List.length_drop]
    omega

/-- C8 (witness): the spec's scenario input yields the normalized phone
`"5125550199"`, a digit-only string of length at most ten. -/
theorem c8_phone_normalization_witness :
    (smart_parse ("John Smith, jsmith@example.com, (512) 555-0199".toList)).phones =
      (phoneMatches ("John Smith, jsmith@example.com, (512) 555-0199".toList)).map
        (fun m => lastN 10 (m.filter Char.isDigit)) ∧
    ("5125550199".toList ∈
      (smart_parse ("John Smith, jsmith@example.com, (512) 555-0199".toList)).phones) ∧
    ("5125550199".toList).all Char.isDigit = true ∧ ("5125550199".toList).length ≤ 10 := by
  refine ⟨(c8_phone_normalization _).1, by decide, ?_, ?_⟩
  · exact ((c8_phone_normalization ("John Smith, jsmith@example.com, (512) 555-0199".toList)).2
      ("5125550199".toList) (by decide)).1
  · exact ((c8_phone_normalization ("John Smith, jsmith@example.com, (512) 555-0199".toList)).2
      ("5125550199".toList) (by decide)).2

/-- A fold whose step never decreases the accumulated score keeps the
initial score as a lower bound. -/
theorem foldl_fst_mono {α : Type} (f : (ℚ × List (List Char)) → α → (ℚ × List (List Char)))
    (hf : ∀ acc x, acc.1 ≤ (f acc x).1) :
    ∀ (l : List α) (acc : ℚ × List (List Char)), acc.1 ≤ (List.foldl f acc l).1 := by
  intro l
  induction l with
  | nil => intro acc; exact le_refl _
  | cons x xs ih => intro acc; exact (hf acc x).trans (ih (f acc x))

theorem addNameToks_mono (hay : List Char) (q : QueryParts) (acc : ℚ × List (List Char)) :
    acc.1 ≤ (addNameToks hay q acc).1 := by
  unfold addNameToks
  apply foldl_fst_mono
  intro a tok
  by_cases h : tok ≠ [] ∧ tok <:+: hay
  · rw [if_pos h]
    exact le_add_of_nonneg_right (by norm_num)
  · rw [if_neg h]

theorem addCity_mono (hay : List Char) (q : QueryParts) (acc : ℚ × List (List Char)) :
    acc.1 ≤ (addCity hay q acc).1 := by
  cases hc : q.city with
  | none => simp [addCity, hc]
  | some c =>
    by_cases h : c ≠ [] ∧ c.map Char.toLower <:+: hay
    · simp only [addCity, hc, if_pos h]
      exact le_add_of_nonneg_right (by norm_num)
    · simp only [addCity, hc, if_neg h]
      exact le_refl _

theorem addState_mono (hay : List Char) (q : QueryParts) (acc : ℚ × List (List Char)) :
    acc.1 ≤ (addState hay q acc).1 := by
  cases hc : q.state with
  | none => simp [addState, hc]
  | some st =>
    by_cases h : st ≠ [] ∧ st.map Char.toLower <:+: hay
    · simp only [addState, hc, if_pos h]
      exact le_add_of_nonneg_right (by norm_num)
    · simp only [addState, hc, if_neg h]
      exact le_refl _

theorem addEmails_mono (hay : List Char) (q : QueryParts) (acc : ℚ × List (List Char)) :
    acc.1 ≤ (addEmails hay q acc).1 := by
  unfold addEmails
  apply foldl_fst_mono
  intro a em
  by_cases h : (em.takeWhile (fun c => c ≠ '@')).map Char.toLower <:+: hay
  · rw [if_pos h]
    exact le_add_of_nonneg_right (by norm_num)
  · rw [if_neg h]

theorem addPhones_mono (hay : List Char) (q : QueryParts) (acc : ℚ × List (List Char)) :
    acc.1 ≤ (addPhones hay q acc).1 := by
  unfold addPhones
  apply foldl_fst_mono
  intro a ph
  by_cases h : lastN 4 ph ≠ [] ∧ lastN 4 ph <:+: hay
  · rw [if_pos h]
    exact le_add_of_nonneg_right (by norm_num)
  · rw [if_neg h]

/-- C4: the link score always lies in `[0, 1]` — all contributions are
non-negative and the sum is capped at `1`. -/
theorem c4_score_bounds :
    ∀ (text url : List Char) (q : QueryParts),
      0 ≤ (score_link_text text url q).1 ∧ (score_link_text text url q).1 ≤ 1 := by
  intro text url q
  have h0 : ∀ hay : List Char, (0 : ℚ) ≤
      (addPhones hay q (addEmails hay q (addState hay q
        (addCity hay q (addNameToks hay q (0, [])))))).1 := by
    intro hay
    have h1 := addNameToks_mono hay q (0, [])
    have h2 := addCity_mono hay q (addNameToks hay q (0, []))
    have h3 := addState_mono hay q (addCity hay q (addNameToks hay q (0, [])))
    have h4 := addEmails_mono hay q (addState hay q (addCity hay q (addNameToks hay q (0, []))))
    have h5 := addPhones_mono hay q
      (addEmails hay q (addState hay q (addCity hay q (addNameToks hay q (0, [])))))
    exact le_trans (le_trans (le_trans (le_trans h1 h2) h3) h4) h5
  exact ⟨le_min (h0 ((text ++ [' '] ++ url).map Char.toLower)) zero_le_one, min_le_right _ _⟩

/-- Dict update either replaces the matching entry or appends; members
of the result come from the update or the original list. -/
theorem dictUpd_mem : ∀ (acc : List ResultItem) (it y : ResultItem),
    y ∈ dictUpd acc it → y = it ∨ y ∈ acc := by
  intro acc it
  induction acc with
  | nil =>
    intro y hy
    simp only [dictUpd, List.mem_singleton] at hy
    exact Or.inl hy
  | cons x xs ih =>
    intro y hy
    simp only [dictUpd] at hy
    by_cases hx : x.url = it.url
    · rw [if_pos hx] at hy
      rcases List.mem_cons.mp hy with rfl | hy'
      · exact Or.inl rfl
      · exact Or.inr (List.mem_cons_of_mem _ hy')
    · rw [if_neg hx] at hy
      rcases List.mem_cons.mp hy with rfl | hy'
      · exact Or.inr (List.mem_cons_self _ _)
      · rcases ih y hy' with h | h
        · exact Or.inl h
        · exact Or.inr (List.mem_cons_of_mem _ h)

/-- Looking up any URL after a dict update. -/
theorem urlFind_dictUpd (acc : List ResultItem) (it : ResultItem) (u : List Char) :
    urlFind (dictUpd acc it) u = if it.url = u then some it else urlFind acc u := by
  induction acc with
  | nil =>
    by_cases h : it.url = u <;> simp [dictUpd, urlFind, List.find?, h]
  | cons x xs ih =>
    simp only [dictUpd]
    by_cases hx : x.url = it.url
    · rw [if_pos hx]
      by_cases h : it.url = u
      · simp [urlFind, List.find?, h]
      · have hxu : ¬ x.url = u := fun he => h (hx ▸ he)
        simp [urlFind, List.find?, h, hxu]
    · rw [if_neg hx]
      by_cases h : x.url = u
      · have hne : ¬ it.url = u := fun he => hx (h.trans he.symm)
        simp [urlFind, List.find?, h, hne]
      · have l1 : urlFind (x :: dictUpd xs it) u = urlFind (dictUpd xs it) u := by
          simp [urlFind, List.find?, h]
        have l2 : urlFind (x :: xs) u = urlFind xs u := by
          simp [urlFind, List.find?, h]
        rw [l1, l2, ih]

/-- Folding the dict over the rows realizes last-seen-per-URL lookup. -/
theorem urlFind_foldl :
    ∀ (rows acc : List ResultItem) (u : List Char),
      urlFind (rows.foldl dictUpd acc) u =
        (rows.reverse.find? (fun x => decide (x.url = u))).or (urlFind acc u) := by
  intro rows
  induction rows with
  | nil => intro acc u; simp
  | cons r rs ih =>
    intro acc u
    simp only [List.foldl_cons, List.reverse_cons]
    rw [List.find?_append, ih (dictUpd acc r) u, urlFind_dictUpd]
    by_cases h : r.url = u
    · simp [h, List.find?, Option.or_assoc]
    · simp [h, List.find?, Option.or_assoc]

/-- Dict updates preserve distinctness of the stored URLs. -/
theorem dictUpd_nodup (acc : List ResultItem) (it : ResultItem)
    (h : (acc.map (fun x => x.url)).Nodup) :
    ((dictUpd acc it).map (fun x => x.url)).Nodup := by
  induction acc with
  | nil => simp [dictUpd]
  | cons x xs ih =>
    simp only [dictUpd]
    by_cases hx : x.url = it.url
    · rw [if_pos hx]
      simp only [List.map_cons, List.nodup_cons] at h ⊢
      exact ⟨by rw [← hx]; exact h.1, h.2⟩
    · rw [if_neg hx]
      simp only [List.map_cons, List.nodup_cons] at h ⊢
      refine ⟨?_, ih h.2⟩
      intro hmem
      obtain ⟨y, hy, hyu⟩ := List.mem_map.mp hmem
      rcases dictUpd_mem xs it y hy with rfl | hy'
      · exact hx hyu.symm
      · exact h.1 (List.mem_map.mpr ⟨y, hy', hyu⟩)

theorem foldl_dictUpd_nodup :
    ∀ (rows acc : List ResultItem), (acc.map (fun x => x.url)).Nodup →
      ((rows.foldl dictUpd acc).map (fun x => x.url)).Nodup := by
  intro rows
  induction rows with
  | nil => intro acc h; exact h
  | cons r rs ih => intro acc h; exact ih (dictUpd acc r) (dictUpd_nodup acc r h)

theorem foldl_dictUpd_mem :
    ∀ (rows acc : List ResultItem) (y : ResultItem),
      y ∈ rows.foldl dictUpd acc → y ∈ acc ∨ y ∈ rows := by
  intro rows
  induction rows with
  | nil => intro acc y h; exact Or.inl h
  | cons r rs ih =>
    intro acc y h
    rcases ih (dictUpd acc r) y h with h' | h'
    · rcases dictUpd_mem acc r y h' with rfl | h''
      · exact Or.inr (List.mem_cons_self _ _)
      · exact Or.inl h''
    · exact Or.inr (List.mem_cons_of_mem _ h')

/-- With distinct stored URLs, looking up a member's URL returns that
member. -/
theorem urlFind_of_mem :
    ∀ l : List ResultItem, (l.map (fun x => x.url)).Nodup →
      ∀ it ∈ l, urlFind l it.url = some it := by
  intro l
  induction l with
  | nil => intro _ it hit; simp at hit
  | cons x xs ih =>
    intro hnd it hit
    simp only [List.map_cons, List.nodup_cons] at hnd
    rcases List.mem_cons.mp hit with rfl | hit'
    · simp [urlFind, List.find?]
    · by_cases hx : x.url = it.url
      · exact absurd (by rw [hx]; exact List.mem_map.mpr ⟨it, hit', rfl⟩) hnd.1
      · have l1 : urlFind (x :: xs) it.url = urlFind xs it.url := by
          simp [urlFind, List.find?, hx]
        rw [l1]
        exact ih hnd.2 it hit'

/-- C7: aggregation keeps exactly one item per distinct URL — the URLs
of the output are distinct, they are exactly the URLs occurring across
the flattened per-site lists, and each retained item is the last item
bearing its URL in concatenation order. -/
theorem c7_dedup_last_wins :
    ∀ ls : List (List ResultItem),
      ((aggregate ls).map (fun it => it.url)).Nodup ∧
      (∀ u : List Char, u ∈ (aggregate ls).map (fun it => it.url) ↔
        u ∈ (ls.flatten).map (fun it => it.url)) ∧
      (∀ it ∈ aggregate ls,
        (ls.flatten).reverse.find? (fun x => decide (x.url = it.url)) = some it) := by
  intro ls
  have hagg : aggregate ls = List.insertionSort itemDesc (ls.flatten.foldl dictUpd []) := rfl
  have hperm : (aggregate ls).Perm (ls.flatten.foldl dictUpd []) := by
    rw [hagg]
    exact List.perm_insertionSort itemDesc _
  have hnd : ((ls.flatten.foldl dictUpd []).map (fun x => x.url)).Nodup :=
    foldl_dictUpd_nodup ls.flatten [] (by simp)
  refine ⟨((hperm.map _).nodup_iff).mpr hnd, ?_, ?_⟩
  · intro u
    constructor
    · intro hu
      obtain ⟨it, hit, rfl⟩ := List.mem_map.mp hu
      have hit' : it ∈ ls.flatten.foldl dictUpd [] := hperm.mem_iff.mp hit
      rcases foldl_dictUpd_mem ls.flatten [] it hit' with h | h
      · simp at h
      · exact List.mem_map.mpr ⟨it, h, rfl⟩
    · intro hu
      obtain ⟨it, hit, rfl⟩ := List.mem_map.mp hu
      have hfind := urlFind_foldl ls.flatten [] it.url
      have hsome : (ls.flatten.reverse.find? (fun x => decide (x.url = it.url))).isSome := by
        rw [List.find?_isSome]
        exact ⟨it, by simpa using hit, by simp⟩
      obtain ⟨y, hy⟩ := Option.isSome_iff_exists.mp hsome
      have hyfind : List.find? (fun x => decide (x.url = it.url))
          (ls.flatten.foldl dictUpd []) = some y := by
        have : urlFind (ls.flatten.foldl dictUpd []) it.url = some y := by
          rw [hfind, hy]
          rfl
        exact this
      have hymem : y ∈ ls.flatten.foldl dictUpd [] := List.mem_of_find?_eq_some hyfind
      have hyp := List.find?_some hyfind
      have hyurl : y.url = it.url := of_decide_eq_true hyp
      exact List.mem_map.mpr ⟨y, hperm.mem_iff.mpr hymem, hyurl⟩
  · intro it hit
    have hit' : it ∈ ls.flatten.foldl dictUpd [] := hperm.mem_iff.mp hit
    have h5 := urlFind_of_mem _ hnd it hit'
    rw [urlFind_foldl ls.flatten [] it.url] at h5
    simp only [urlFind, List.find?_nil, Option.or_none] at h5
    exact h5

/-- C7 (witness): two items sharing the URL `"u"` — the later one (from
the later site) is the unique retained entry. -/
theorem c7_dedup_last_wins_witness :
    (([[{ site := "a".toList, title := [], url := "u".toList, score := 1, matched_fields := [] }],
       [{ site := "b".toList, title := [], url := "u".toList, score := 2, matched_fields := [] }]]
        : List (List ResultItem)).flatten).reverse.find?
      (fun x => decide (x.url =
        ({ site := "b".toList, title := [], url := "u".toList, score := 2,
           matched_fields := [] } : ResultItem).url)) =
      some { site := "b".toList, title := [], url := "u".toList, score := 2,
             matched_fields := [] } :=
  (c7_dedup_last_wins
      [[{ site := "a".toList, title := [], url := "u".toList, score := 1, matched_fields := [] }],
       [{ site := "b".toList, title := [], url := "u".toList, score := 2, matched_fields := [] }]]).2.2
    { site := "b".toList, title := [], url := "u".toList, score := 2, matched_fields := [] }
    (by decide)

/-- C2 (counterexample): two items with equal score and sites
`"a" < "b"` come out in the order `"b"`, `"a"` — the tie is broken by
descending, not ascending, site identifier (`reverse=True` flips the
whole key). -/
theorem c2_counterexample :
    aggregate [[{ site := "a".toList, title := [], url := "u1".toList, score := 1,
                  matched_fields := [] },
                { site := "b".toList, title := [], url := "u2".toList, score := 1,
                  matched_fields := [] }]] =
      [{ site := "b".toList, title := [], url := "u2".toList, score := 1, matched_fields := [] },
       { site := "a".toList, title := [], url := "u1".toList, score := 1, matched_fields := [] }] ∧
    lexLe "a".toList "b".toList = true ∧ "a".toList ≠ "b".toList := by
  exact ⟨by decide, by decide, by decide⟩

/-- C2 (amended): the aggregated output is sorted non-increasing by
score, and among items of equal score the site identifiers are
non-ascending (descending tie-break; equal keys keep their dict
order). -/
theorem c2_sorted_desc :
    ∀ ls : List (List ResultItem),
      List.Pairwise
        (fun a b => b.score ≤ a.score ∧ (b.score = a.score → lexLe b.site a.site = true))
        (aggregate ls) := by
  intro ls
  have hs := List.sorted_insertionSort itemDesc (ls.flatten.foldl dictUpd [])
  have hagg : aggregate ls = List.insertionSort itemDesc (ls.flatten.foldl dictUpd []) := rfl
  rw [hagg]
  refine List.Pairwise.imp ?_ hs
  intro a b hab
  rcases hab with h | ⟨he, hsite⟩
  · exact ⟨le_of_lt h, fun heq => absurd heq (ne_of_lt h)⟩
  · exact ⟨le_of_eq he, fun _ => hsite⟩

/-- Every item emitted by the anchor loop passed the 0.4 threshold,
carries a title truncated to 120 characters, and is attributed to the
scraped site. -/
theorem processAnchors_mem :
    ∀ (site : List Char) (q : QueryParts) (domain : List Char)
      (anchors : List (List Char × List Char)) (seen : List (List Char)) (it : ResultItem),
      it ∈ processAnchors site q domain anchors seen →
      (0.4 : ℚ) ≤ it.score ∧ it.title.length ≤ 120 ∧ it.site = site := by
  intro site q domain anchors
  induction anchors with
  | nil => intro seen it hit; simp [processAnchors] at hit
  | cons a rest ih =>
    intro seen it hit
    obtain ⟨txt, href⟩ := a
    simp only [processAnchors] at hit
    by_cases h1 : href.take 1 = ['#']
    · rw [if_pos h1] at hit
      exact ih seen it hit
    · rw [if_neg h1] at hit
      by_cases h2 : lastTwoLabels domain ≠
          lastTwoLabels (stripPort (if netlocOf href = [] then domain else netlocOf href))
      · rw [if_pos h2] at hit
        exact ih seen it hit
      · rw [if_neg h2] at hit
        by_cases h3 : (if netlocOf href = [] then "https://".toList ++ domain ++ href
            else href) ∈ seen
        · rw [if_pos h3] at hit
          exact ih seen it hit
        · rw [if_neg h3] at hit
          by_cases h4 : (0.4 : ℚ) ≤ (score_link_text (pyStrip txt)
              (if netlocOf href = [] then "https://".toList ++ domain ++ href else href) q).1
          · rw [if_pos h4] at hit
            rcases List.mem_cons.mp hit with rfl | hit'
            · exact ⟨h4, List.length_take_le _ _, rfl⟩
            · exact ih _ it hit'
          · rw [if_neg h4] at hit
            exact ih _ it hit

/-- C6: per-site extraction returns the empty sequence when the
optional HTTP/HTML capability is missing (or the fetch fails), and on a
fetched page returns at most 15 items, sorted by score descending, each
with score at least 0.4, title truncated to 120 characters, and the
queried site attached. -/
theorem c6_scrape_contract :
    ∀ (site url : List Char) (q : QueryParts) (anchors : List (List Char × List Char)),
      best_effort_scrape .unavailable site url q = [] ∧
      best_effort_scrape .failed site url q = [] ∧
      (best_effort_scrape (.page anchors) site url q).length ≤ 15 ∧
      List.Pairwise scoreDesc (best_effort_scrape (.page anchors) site url q) ∧
      (best_effort_scrape (.page anchors) site url q).all
        (fun it => decide ((0.4 : ℚ) ≤ it.score) && decide (it.title.length ≤ 120) &&
          decide (it.site = site)) = true := by
  intro site url q anchors
  refine ⟨rfl, rfl, List.length_take_le _ _, ?_, ?_⟩
  · have hs := List.sorted_insertionSort scoreDesc
      (processAnchors site q (stripPort (netlocOf url)) anchors [])
    exact List.Pairwise.sublist (List.take_sublist _ _) hs
  · rw [List.all_eq_true]
    intro it hit
    have h1 : it ∈ List.insertionSort scoreDesc
        (processAnchors site q (stripPort (netlocOf url)) anchors []) :=
      List.take_subset _ _ hit
    have hit' : it ∈ processAnchors site q (stripPort (netlocOf url)) anchors [] :=
      (List.perm_insertionSort scoreDesc _).mem_iff.mp h1
    obtain ⟨hs1, hs2, hs3⟩ := processAnchors_mem site q _ anchors [] it hit'
    simp [hs1, hs2, hs3]

/-- Core lemma for the replacement analysis: any suffix of a space-free
string `e` that is a prefix of `s.replace(old, ' ')` was already a
prefix of `s` — the inserted spaces cannot occur inside `e`, and the
preserved characters are copied in order. -/
theorem repl_sufpref :
    ∀ (fuel : Nat) (s old e : List Char) (j : Nat),
      (∀ c ∈ e, c ≠ ' ') → j < e.length → old ≠ [] →
      e.drop j <+: replaceAllF fuel s old [' '] → e.drop j <+: s := by
  intro fuel
  induction fuel with
  | zero =>
    intro s old e j _ hj _ hpre
    simp only [replaceAllF] at hpre
    have h0 := List.prefix_nil.mp hpre
    have := congrArg List.length h0
    simp [List.length_drop] at this
    omega
  | succ fuel ih =>
    intro s old e j hsp hj hold hpre
    simp only [replaceAllF] at hpre
    rw [if_neg hold] at hpre
    have hdropc : e.drop j = e[j] :: e.drop (j + 1) := List.drop_eq_getElem_cons hj
    by_cases hp : s.take old.length = old
    · rw [if_pos hp, List.singleton_append, hdropc] at hpre
      have hsj : e[j] = ' ' := (List.cons_prefix_cons.mp hpre).1
      exact absurd hsj (hsp _ (List.getElem_mem hj))
    · rw [if_neg hp] at hpre
      cases s with
      | nil =>
        have h0 := List.prefix_nil.mp hpre
        have := congrArg List.length h0
        simp [List.length_drop] at this
        omega
      | cons c t =>
        rw [hdropc] at hpre ⊢
        obtain ⟨hej, hrest⟩ := List.cons_prefix_cons.mp hpre
        by_cases hj1 : j + 1 < e.length
        · have hres := ih t old e (j + 1) hsp hj1 hold hrest
          exact List.cons_prefix_cons.mpr ⟨hej, hres⟩
        · have hnil : e.drop (j + 1) = [] := List.drop_eq_nil_of_le (by omega)
          rw [hnil]
          exact List.cons_prefix_cons.mpr ⟨hej, List.nil_prefix⟩

/-- After `s.replace(old, ' ')` for a nonempty space-free `old`, no
occurrence of `old` remains (leftmost replacement removes them all and
a single inserted space cannot recreate one). -/
theorem repl_kills :
    ∀ (fuel : Nat) (s old : List Char), (∀ c ∈ old, c ≠ ' ') → old ≠ [] →
      ¬ old <:+: replaceAllF fuel s old [' '] := by
  intro fuel
  induction fuel with
  | zero =>
    intro s old hsp hold hin
    simp only [replaceAllF] at hin
    exact hold (List.infix_nil.mp hin)
  | succ fuel ih =>
    intro s old hsp hold hin
    simp only [replaceAllF] at hin
    rw [if_neg hold] at hin
    by_cases hp : s.take old.length = old
    · rw [if_pos hp, List.singleton_append] at hin
      rcases List.infix_cons_iff.mp hin with hpre | hin'
      · cases old with
        | nil => exact hold rfl
        | cons o0 os =>
          have ho0 : o0 = ' ' := (List.cons_prefix_cons.mp hpre).1
          exact hsp o0 (List.mem_cons_self _ _) ho0
      · exact ih (s.drop old.length) old hsp hold hin'
    · rw [if_neg hp] at hin
      cases s with
      | nil => exact hold (List.infix_nil.mp hin)
      | cons c t =>
        rcases List.infix_cons_iff.mp hin with hpre | hin'
        · have heq : replaceAllF (fuel + 1) (c :: t) old [' '] =
              c :: replaceAllF fuel t old [' '] := by
            simp only [replaceAllF]
            rw [if_neg hold, if_neg hp]
          have hlt : 0 < old.length := List.length_pos.mpr hold
          have hpre' : old.drop 0 <+: replaceAllF (fuel + 1) (c :: t) old [' '] := by
            rw [heq]
            simpa using hpre
          have := repl_sufpref (fuel + 1) (c :: t) old old 0 hsp hlt hold hpre'
          rw [List.prefix_iff_eq_take] at this
          exact hp (by simpa using this.symm)
        · exact ih t old hsp hold hin'

/-- Replacing any nonempty `old` by a space cannot create a new
occurrence of a nonempty space-free string `e`. -/
theorem repl_no_new :
    ∀ (fuel : Nat) (s old e : List Char),
      (∀ c ∈ e, c ≠ ' ') → e ≠ [] → old ≠ [] →
      e <:+: replaceAllF fuel s old [' '] → e <:+: s := by
  intro fuel
  induction fuel with
  | zero =>
    intro s old e _ hne _ hin
    simp only [replaceAllF] at hin
    exact absurd (List.infix_nil.mp hin) hne
  | succ fuel ih =>
    intro s old e hsp hne hold hin
    simp only [replaceAllF] at hin
    rw [if_neg hold] at hin
    by_cases hp : s.take old.length = old
    · rw [if_pos hp, List.singleton_append] at hin
      rcases List.infix_cons_iff.mp hin with hpre | hin'
      · cases e with
        | nil => exact absurd rfl hne
        | cons e0 es =>
          have he0 : e0 = ' ' := (List.cons_prefix_cons.mp hpre).1
          exact absurd he0 (hsp e0 (List.mem_cons_self _ _))
      · have hdrop := ih (s.drop old.length) old e hsp hne hold hin'
        exact List.IsInfix.trans hdrop ( List.IsSuffix.isInfix (List.drop_suffix _ _))
    · rw [if_neg hp] at hin
      cases s with
      | nil => exact absurd (List.infix_nil.mp hin) hne
      | cons c t =>
        rcases List.infix_cons_iff.mp hin with hpre | hin'
        · have heq : replaceAllF (fuel + 1) (c :: t) old [' '] =
              c :: replaceAllF fuel t old [' '] := by
            simp only [replaceAllF]
            rw [if_neg hold, if_neg hp]
          have hlt : 0 < e.length := List.length_pos.mpr hne
          have hpre' : e.drop 0 <+: replaceAllF (fuel + 1) (c :: t) old [' '] := by
            rw [heq]
            simpa using hpre
          have hps := repl_sufpref (fuel + 1) (c :: t) old e 0 hsp hlt hold hpre'
          exact List.IsPrefix.isInfix (by simpa using hps)
        · exact List.infix_cons_iff.mpr (Or.inr (ih t old e hsp hne hold hin'))

/-- A replacement fold over nonempty patterns preserves the absence of
a nonempty space-free string. -/
theorem foldPreserve :
    ∀ (olds : List (List Char)) (w e : List Char),
      (∀ c ∈ e, c ≠ ' ') → e ≠ [] → (∀ o ∈ olds, o ≠ []) →
      ¬ e <:+: w → ¬ e <:+: olds.foldl (fun w o => pyReplace w o [' ']) w := by
  intro olds
  induction olds with
  | nil => intro w e _ _ _ h; exact h
  | cons o os ih =>
    intro w e hsp hne holds h
    have ho : o ≠ [] := holds o (List.mem_cons_self _ _)
    have hos : ∀ o' ∈ os, o' ≠ [] := fun o' h' => holds o' (List.mem_cons_of_mem _ h')
    simp only [List.foldl_cons]
    apply ih (pyReplace w o [' ']) e hsp hne hos
    intro hin
    exact h (repl_no_new (w.length + 1) w o e hsp hne ho hin)

/-- A replacement fold over nonempty patterns eliminates every
space-free member of the pattern list from the working text. -/
theorem foldKill :
    ∀ (olds : List (List Char)) (w e : List Char),
      (∀ c ∈ e, c ≠ ' ') → e ≠ [] → (∀ o ∈ olds, o ≠ []) → e ∈ olds →
      ¬ e <:+: olds.foldl (fun w o => pyReplace w o [' ']) w := by
  intro olds
  induction olds with
  | nil => intro w e _ _ _ hmem; simp at hmem
  | cons o os ih =>
    intro w e hsp hne holds hmem
    have ho : o ≠ [] := holds o (List.mem_cons_self _ _)
    have hos : ∀ o' ∈ os, o' ≠ [] := fun o' h' => holds o' (List.mem_cons_of_mem _ h')
    rcases List.mem_cons.mp hmem with rfl | hmem'
    · simp only [List.foldl_cons]
      apply foldPreserve os (pyReplace w e [' ']) e hsp hne hos
      exact repl_kills (w.length + 1) w e hsp hne
    · simp only [List.foldl_cons]
      exact ih (pyReplace w o [' ']) e hsp hne hos hmem'

/-- C3 (counterexample): on the input
`"123 456 7890 and 123 456(512) 555-01997890"` the matched phone
substring `"123 456 7890"` reappears in the residual text — replacing
the second match `"(512) 555-0199"` by a space splices
`"123 456"` and `"7890"` back into the first match, so the residual is
not free of matched phone substrings and the name is parsed from text
containing those digits. -/
theorem c3_counterexample :
    ("123 456 7890".toList ∈
      phoneMatches ("123 456 7890 and 123 456(512) 555-01997890".toList)) ∧
    "123 456 7890".toList <:+:
      residualText ("123 456 7890 and 123 456(512) 555-01997890".toList) := by
  exact ⟨by decide, by decide⟩

/-- C3 (amended): every matched email and phone substring is passed to
`str.replace(·, ' ')` once, in match order, before comma segmentation;
this guarantees the residual text contains no matched email substring
(emails contain no space), but a matched phone substring may be
recreated by a later replacement, so the residual is only email-free. -/
theorem c3_residual_email_free :
    ∀ q : List Char, ∀ e ∈ (smart_parse q).emails, ¬ e <:+: residualText q := by
  intro q e he
  have hemails : (smart_parse q).emails = emailMatches q := rfl
  rw [hemails] at he
  obtain ⟨hne, hsp⟩ := emailMatches_spec q e he
  unfold residualText
  apply foldPreserve (phoneMatches q) _ e hsp hne
  · intro p hp
    exact (phoneMatches_spec q p hp).2
  · apply foldKill (emailMatches q) q e hsp hne ?_ he
    intro e' he'
    exact (emailMatches_spec q e' he').1

/-- C3 (witness): the email of the spec's second scenario is matched
and absent from the residual text. -/
theorem c3_residual_email_free_witness :
    ("jsmith@example.com".toList ∈
      (smart_parse ("John Smith, jsmith@example.com, (512) 555-0199".toList)).emails) ∧
    ¬ "jsmith@example.com".toList <:+:
        residualText ("John Smith, jsmith@example.com, (512) 555-0199".toList) :=
  ⟨by decide, c3_residual_email_free ("John Smith, jsmith@example.com, (512) 555-0199".toList)
    ("jsmith@example.com".toList) (by decide)⟩
